import Mathlib

set_option maxHeartbeats 1000000

/-!
# Verification of the memory_replay worker pool (`Threads.cpp`)

A shallow embedding of `memory_replay/Threads.cpp`: a fixed-capacity
registry of worker threads addressed by thread identifier through an
open-addressing hash table without tombstones, plus the quiescence
barrier and the sequential shutdown protocol.

Machine integers (`size_t`, `pid_t`) are modelled as `Nat`; the only
place where 64-bit wraparound matters is the constructor's page-rounding
arithmetic, where it is made explicit with `% 2 ^ 64`.  Fatal process
termination (`err` / `errx`) is modelled as `Option.none`.  Loops whose
termination depends on the registry invariant carry an explicit fuel
argument; the fuel bounds are justified by the theorems below.
-/

/-- One worker slot (class `Thread`).  Only the fields `Threads.cpp`
reads or writes are modelled: `tid_` (`0` means the slot is free) and
`total_time_nsecs_`.  The `pending` flag models the idle/pending
handshake signal described by the spec (`Thread.h` is outside this
tree); `false` is idle.  The opaque pointer-table handle and the OS
thread handle carry no replay-visible state and are omitted. -/
structure Thread where
  tid : Nat
  totalTimeNsecs : Nat
  pending : Bool
  deriving DecidableEq, Repr

instance : Inhabited Thread := ⟨⟨0, 0, false⟩⟩

/-- The worker registry (class `Threads`): `max_threads_` (the capacity
after page rounding), the slot array `threads_`, `num_threads_` and
`total_time_nsecs_`. -/
structure Threads where
  maxThreads : Nat
  threads : List Thread
  numThreads : Nat
  totalTimeNsecs : Nat
  deriving DecidableEq, Repr

/-- The identifier stored in slot `i` (`threads_[i].tid_`). -/
def tidAt (st : Threads) (i : Nat) : Nat := (st.threads.getD i default).tid

/-- The number of slots whose `tid_` is non-zero. -/
def countActive (ts : List Thread) : Nat := ts.countP (fun th => th.tid ≠ 0)

/-- `threads_` has exactly `max_threads_` slots (established by the
constructor, which placement-constructs `max_threads_` objects). -/
def Threads.WF (st : Threads) : Prop := st.threads.length = st.maxThreads

/-- The free-slot invariant: `num_threads_` equals the number of slots
holding a non-zero identifier. -/
def Threads.Inv (st : Threads) : Prop :=
  st.WF ∧ st.numThreads = countActive st.threads

/-- Every free slot has an idle handshake signal (true of fresh
zero-initialized slots and of retired slots, whose worker clears the
pending flag before exiting). -/
def Threads.FreeIdle (st : Threads) : Prop :=
  ∀ i, i < st.threads.length → (st.threads.getD i default).tid = 0 →
    (st.threads.getD i default).pending = false

/-- `Threads::GetHashEntry`: `tid % max_threads_`. -/
def Threads.getHashEntry (st : Threads) (tid : Nat) : Nat := tid % st.maxThreads

/-- The loop of `Threads::FindThread`.  One unit of fuel is one
evaluation of the loop condition `entries != 0`; the C loop has no such
bound, and a fuel of `max_threads_ + 1` is exact on every state
satisfying the free-slot invariant (third conjunct of the `C1`
theorem). -/
def findThreadAux (ts : List Thread) (n tid : Nat) : Nat → Nat → Nat → Option Nat
  | 0, _, _ => none
  | fuel + 1, index, entries =>
    if entries = 0 then none
    else
      let cur := (ts.getD index default).tid
      if cur = tid then some index
      else
        findThreadAux ts n tid fuel
          (if index + 1 = n then 0 else index + 1)
          (if cur ≠ 0 then entries - 1 else entries)

/-- `Threads::FindThread`: probe linearly from the hash slot, skipping
zero slots, until the identifier is found or `num_threads_` non-zero
slots have been examined. -/
def Threads.findThread (st : Threads) (tid : Nat) : Option Nat :=
  findThreadAux st.threads st.maxThreads tid (st.maxThreads + 1)
    (st.getHashEntry tid) st.numThreads

/-- The loop of `Threads::FindEmptyEntry`: at most `max_threads_`
probes (`remaining` counts probes left), looking for a slot with
`tid_ == 0`. -/
def findEmptyAux (ts : List Thread) (n : Nat) : Nat → Nat → Option Nat
  | _, 0 => none
  | index, remaining + 1 =>
    if (ts.getD index default).tid = 0 then some index
    else findEmptyAux ts n (if index + 1 = n then 0 else index + 1) remaining

/-- `Threads::FindEmptyEntry`. -/
def Threads.findEmptyEntry (st : Threads) (tid : Nat) : Option Nat :=
  findEmptyAux st.threads st.maxThreads (st.getHashEntry tid) st.maxThreads

/-- `Threads::CreateThread`.  `none` models the fatal `errx` paths (pool
exhausted, or no empty entry found).  The slot is initialized with the
identifier and zero accumulated time, and `num_threads_` is incremented.
`pthread_create` failure is an OS-level fatality outside this model.
The returned index is the slot handed back to the caller. -/
def Threads.createThread (st : Threads) (tid : Nat) : Option (Nat × Threads) :=
  if st.numThreads = st.maxThreads then none
  else
    match st.findEmptyEntry tid with
    | none => none
    | some i =>
      let th := st.threads.getD i default
      some (i, { st with
        threads := st.threads.set i { th with tid := tid, totalTimeNsecs := 0 },
        numThreads := st.numThreads + 1 })

/-- A work item handed to a worker: one allocator operation, carrying
the elapsed nanoseconds its execution takes (the duration is what
`AllocExecute` returns for it), or the `THREAD_DONE` sentinel. -/
inductive AllocEntry where
  | alloc (durationNsecs : Nat)
  | threadDone
  deriving DecidableEq, Repr

/-- Modelled from the spec: `AllocExecute` (defined in `Alloc.cpp`,
which is not part of this tree) performs one allocator operation and
returns its elapsed nanoseconds; for the `THREAD_DONE` sentinel it
performs no operation and takes zero time. -/
def AllocExecute : AllocEntry → Nat
  | .alloc d => d
  | .threadDone => 0

/-- The accumulated time of `ThreadRunner` run over a script of work
items: each item's execution time is added (`AddTimeNsecs`), and the
loop exits right after processing a `THREAD_DONE` item. -/
def threadRunnerTime : List AllocEntry → Nat
  | [] => 0
  | .threadDone :: _ => AllocExecute .threadDone
  | .alloc d :: rest => AllocExecute (.alloc d) + threadRunnerTime rest

/-- The `THREAD_DONE` handshake performed by `Threads::FinishAll` on one
occupied slot before joining it: `SetAllocEntry(&thread_done)` and
`SetPending()`, after which the worker executes the sentinel (adding
`AllocExecute` of `THREAD_DONE`, i.e. zero, to its accumulated time),
clears the pending flag and exits its loop.  The `Thread` handshake
methods live in `Thread.cpp`, outside this tree; their net effect here
is modelled from the spec's worker-loop contract. -/
def Threads.signalDone (st : Threads) (i : Nat) : Threads :=
  let th := st.threads.getD i default
  { st with
    threads := st.threads.set i
      { th with totalTimeNsecs := th.totalTimeNsecs + AllocExecute .threadDone,
                pending := false } }

/-- `Threads::Finish`: join the worker (join failure is an OS-level
fatality outside this model), fold its accumulated time into
`total_time_nsecs_`, clear the slot's identifier, decrement
`num_threads_`. -/
def Threads.finish (st : Threads) (i : Nat) : Threads :=
  let th := st.threads.getD i default
  { st with
    totalTimeNsecs := st.totalTimeNsecs + th.totalTimeNsecs,
    threads := st.threads.set i { th with tid := 0 },
    numThreads := st.numThreads - 1 }

/-- One iteration of the `Threads::FinishAll` loop: skip a free slot;
on an occupied slot, signal `THREAD_DONE` and then `Finish` (join) it
before the next slot is touched.  The second component records the
indices processed, in order. -/
def finishStep (acc : Threads × List Nat) (i : Nat) : Threads × List Nat :=
  if (acc.1.threads.getD i default).tid ≠ 0
  then ((acc.1.signalDone i).finish i, acc.2 ++ [i])
  else acc

/-- `Threads::FinishAll`: walk all `max_threads_` slots in storage
order. -/
def Threads.finishAll (st : Threads) : Threads × List Nat :=
  (List.range st.maxThreads).foldl finishStep (st, [])

/-- The loop of `Threads::WaitForAllToQuiesce`, returning the indices on
which `WaitForReady` is called, in order.  The C loop bounds `i` only by
the running count of occupied slots seen; reading `threads_[i]` past the
slot array (which the free-slot invariant rules out) is modelled as
`none`. -/
def waitGo (ts : List Thread) (num : Nat) : Nat → Nat → Nat → Option (List Nat)
  | 0, _, seen => if seen < num then none else some []
  | fuel + 1, i, seen =>
    if seen < num then
      if (ts.getD i default).tid ≠ 0 then
        (waitGo ts num fuel (i + 1) (seen + 1)).map (fun l => i :: l)
      else waitGo ts num fuel (i + 1) seen
    else some []

/-- `Threads::WaitForAllToQuiesce`. -/
def Threads.waitForAllToQuiesce (st : Threads) : Option (List Nat) :=
  waitGo st.threads st.numThreads st.threads.length 0 0

/-- `data_size_` as computed by the constructor on 64-bit `size_t`:
`(max_threads_ * sizeof(Thread) + pagesize - 1) & ~(pagesize - 1)`.
For `1 ≤ p ≤ 2 ^ 64` the two's-complement value of `~(p - 1)` is
`2 ^ 64 - p`. -/
def ctorDataSize (m s p : Nat) : Nat :=
  ((m * s + (p - 1)) % 2 ^ 64) &&& (2 ^ 64 - p)

/-- `max_threads_` as recomputed by the constructor:
`data_size_ / sizeof(Thread)`. -/
def ctorMaxThreads (m s p : Nat) : Nat := ctorDataSize m s p / s

/-- The registry right after construction: `capacity` zero-initialized
slots (the backing region is a fresh anonymous mapping, hence
zero-filled), no active workers, zero retired time. -/
def initThreads (capacity : Nat) : Threads :=
  { maxThreads := capacity
    threads := List.replicate capacity default
    numThreads := 0
    totalTimeNsecs := 0 }

/-- A sequence of `CreateThread` calls, recording for each identifier
the slot index `CreateThread` returned for it. -/
def createAll : Threads → List Nat → Option (Threads × List (Nat × Nat))
  | st, [] => some (st, [])
  | st, t :: rest =>
    match st.createThread t with
    | none => none
    | some (i, st1) =>
      match createAll st1 rest with
      | none => none
      | some (stf, ps) => some (stf, (t, i) :: ps)

instance (st : Threads) : Decidable st.WF := by
  unfold Threads.WF; infer_instance

instance (st : Threads) : Decidable st.Inv := by
  unfold Threads.Inv; infer_instance

instance (st : Threads) : Decidable st.FreeIdle := by
  unfold Threads.FreeIdle; infer_instance

/-! ## Basic helpers about list indexing and counting -/

lemma wrapIndex_eq_mod {i n : Nat} (h : i < n) :
    (if i + 1 = n then 0 else i + 1) = (i + 1) % n := by
  by_cases hin : i + 1 = n
  · simp [hin]
  · rw [if_neg hin, Nat.mod_eq_of_lt (by omega)]

lemma wrapIndex_lt {i n : Nat} (h : i < n) :
    (if i + 1 = n then 0 else i + 1) < n := by
  split <;> omega

/-- Stepping the probe start by one slot and then probing `j` further
reaches the same slot as probing `j + 1` from the original start. -/
lemma mod_probe_shift {n : Nat} (index j : Nat) :
    ((index + 1) % n + j) % n = (index + (j + 1)) % n := by
  rw [Nat.mod_add_mod]
  congr 1
  omega

lemma getD_set_self {l : List Thread} {i : Nat} (a : Thread) (h : i < l.length) :
    (l.set i a).getD i default = a := by
  rw [List.getD_eq_getElem?_getD, List.getElem?_set]
  simp [h]

lemma getD_set_ne {l : List Thread} {i j : Nat} (a : Thread) (h : i ≠ j) :
    (l.set i a).getD j default = l.getD j default := by
  rw [List.getD_eq_getElem?_getD, List.getElem?_set, if_neg h,
    ← List.getD_eq_getElem?_getD]

lemma getD_replicate {c j : Nat} :
    (List.replicate c (default : Thread)).getD j default = default := by
  rcases Nat.lt_or_ge j c with h | h
  · rw [List.getD_eq_getElem _ _ (by simpa using h), List.getElem_replicate]
  · exact List.getD_eq_default _ _ (by simpa using h)

/-- Replacing one slot changes a `countP` by the difference of the
indicator values of the old and the new element. -/
lemma countP_set_balance (p : Thread → Bool) (l : List Thread) :
    ∀ (i : Nat) (a : Thread), i < l.length →
      (l.set i a).countP p + (if p (l.getD i default) then 1 else 0)
        = l.countP p + (if p a then 1 else 0) := by
  induction l with
  | nil => intro i a h; simp at h
  | cons b l ih =>
    intro i a h
    cases i with
    | zero =>
      simp only [List.set_cons_zero, List.countP_cons, List.getD_cons_zero]
      omega
    | succ i =>
      have hlen : i < l.length := by simpa using Nat.lt_of_succ_lt_succ h
      have hrec := ih i a hlen
      simp only [List.set_cons_succ, List.countP_cons, List.getD_cons_succ]
      omega

/-- A list is the map of its `getD` accesses over `range`. -/
lemma map_getD_range (l : List Thread) :
    (List.range l.length).map (fun i => l.getD i default) = l := by
  induction l with
  | nil => simp
  | cons a l ih =>
    have h : ∀ i, (a :: l).getD (Nat.succ i) default = l.getD i default :=
      fun i => List.getD_cons_succ
    calc (List.range (a :: l).length).map (fun i => (a :: l).getD i default)
        = a :: (List.range l.length).map (fun i => l.getD i default) := by
          rw [List.length_cons, List.range_succ_eq_map, List.map_cons, List.map_map]
          simp [Function.comp_def, h]
      _ = a :: l := by rw [ih]

/-- `countActive` as a count over slot indices. -/
lemma countActive_eq_range_countP (ts : List Thread) :
    countActive ts
      = (List.range ts.length).countP (fun i => (ts.getD i default).tid ≠ 0) := by
  unfold countActive
  conv_lhs => rw [← map_getD_range ts]
  rw [List.countP_map]
  rfl

/-! ## The `FindThread` probe loop -/

/-- Soundness: when the probe returns a slot, that slot holds the
queried identifier. -/
lemma findThreadAux_sound (ts : List Thread) (n t : Nat) :
    ∀ (fuel index entries i : Nat), index < n →
      findThreadAux ts n t fuel index entries = some i →
      i < n ∧ (ts.getD i default).tid = t := by
  intro fuel
  induction fuel with
  | zero => intro index entries i _ h; simp [findThreadAux] at h
  | succ fuel ih =>
    intro index entries i hidx h
    simp only [findThreadAux] at h
    split at h
    · exact absurd h (by simp)
    · split at h
      · cases h
        constructor
        · exact hidx
        · assumption
      · exact ih _ _ _ (wrapIndex_lt hidx) h

/-- When no slot holds the queried identifier the probe returns `none`,
for every amount of fuel. -/
lemma findThreadAux_notFound (ts : List Thread) (n t : Nat)
    (habs : ∀ j, j < n → (ts.getD j default).tid ≠ t) :
    ∀ (fuel index entries : Nat), index < n →
      findThreadAux ts n t fuel index entries = none := by
  intro fuel
  induction fuel with
  | zero => intro index entries _; simp [findThreadAux]
  | succ fuel ih =>
    intro index entries hidx
    simp only [findThreadAux]
    by_cases he : entries = 0
    · rw [if_pos he]
    · rw [if_neg he, if_neg (habs index hidx)]
      exact ih _ _ (wrapIndex_lt hidx)

/-- Completeness of the probe: if slot `(h + k) % n` holds the target,
no earlier probe position does, and strictly more than the number of
non-zero slots among the earlier probe positions remain in `entries`,
then the probe returns exactly that slot.  This is the tombstone-free
property: zero slots passed on the way do not stop the search and do
not consume `entries`. -/
lemma findThreadAux_found (ts : List Thread) (n t : Nat) :
    ∀ (k h entries fuel : Nat), h < n → k < n →
      (∀ j, j < k → (ts.getD ((h + j) % n) default).tid ≠ t) →
      (ts.getD ((h + k) % n) default).tid = t →
      (List.range k).countP (fun j => (ts.getD ((h + j) % n) default).tid ≠ 0)
        < entries →
      k < fuel →
      findThreadAux ts n t fuel h entries = some ((h + k) % n) := by
  intro k
  induction k with
  | zero =>
    intro h entries fuel hh _ _ hhit hcnt hfuel
    obtain ⟨f, rfl⟩ : ∃ f, fuel = f + 1 := ⟨fuel - 1, by omega⟩
    have h0 : (h + 0) % n = h := by rw [Nat.add_zero, Nat.mod_eq_of_lt hh]
    rw [h0] at hhit ⊢
    have he : ¬ entries = 0 := by omega
    simp only [findThreadAux]
    rw [if_neg he, if_pos hhit]
  | succ k ih =>
    intro h entries fuel hh hk hmiss hhit hcnt hfuel
    obtain ⟨f, rfl⟩ : ∃ f, fuel = f + 1 := ⟨fuel - 1, by omega⟩
    have hn0 : 0 < n := by omega
    have he : ¬ entries = 0 := by
      have : 0 < entries := Nat.lt_of_le_of_lt (Nat.zero_le _) hcnt
      omega
    have h0 : (h + 0) % n = h := by rw [Nat.add_zero, Nat.mod_eq_of_lt hh]
    have hcur : ¬ (ts.getD h default).tid = t := by
      have := hmiss 0 (Nat.succ_pos k)
      rwa [h0] at this
    simp only [findThreadAux]
    rw [if_neg he, if_neg hcur, wrapIndex_eq_mod hh]
    have hh2 : (h + 1) % n < n := Nat.mod_lt _ hn0
    have hmiss2 : ∀ j, j < k →
        (ts.getD (((h + 1) % n + j) % n) default).tid ≠ t := by
      intro j hj
      rw [mod_probe_shift]
      exact hmiss (j + 1) (by omega)
    have hhit2 : (ts.getD (((h + 1) % n + k) % n) default).tid = t := by
      rw [mod_probe_shift]
      exact hhit
    have hsplit : (List.range (k + 1)).countP
          (fun j => (ts.getD ((h + j) % n) default).tid ≠ 0)
        = (if (ts.getD h default).tid ≠ 0 then 1 else 0)
          + (List.range k).countP
              (fun j => (ts.getD (((h + 1) % n + j) % n) default).tid ≠ 0) := by
      rw [List.range_succ_eq_map, List.countP_cons, List.countP_map]
      have hcg : (List.range k).countP
            ((fun j => decide ((ts.getD ((h + j) % n) default).tid ≠ 0)) ∘ Nat.succ)
          = (List.range k).countP
              (fun j => decide ((ts.getD (((h + 1) % n + j) % n) default).tid ≠ 0)) := by
        apply List.countP_congr
        intro x _
        simp only [Function.comp_apply, mod_probe_shift]
      rw [hcg, h0]
      by_cases hz : (ts.getD h default).tid = 0 <;> simp [hz] <;> omega
    have hgoal : findThreadAux ts n t f ((h + 1) % n)
          (if (ts.getD h default).tid ≠ 0 then entries - 1 else entries)
        = some (((h + 1) % n + k) % n) := by
      by_cases hz : (ts.getD h default).tid = 0
      · rw [if_neg (not_not_intro hz)]
        apply ih ((h + 1) % n) entries f hh2 (by omega) hmiss2 hhit2 ?_ (by omega)
        rw [hsplit, if_neg (not_not_intro hz)] at hcnt
        omega
      · rw [if_pos hz]
        apply ih ((h + 1) % n) (entries - 1) f hh2 (by omega) hmiss2 hhit2 ?_ (by omega)
        rw [hsplit, if_pos hz] at hcnt
        omega
    rw [hgoal, mod_probe_shift]

/-- When every one of the next `entries` probe positions holds a
non-zero identifier different from the target, the counter reaches zero
and the probe reports absence. -/
lemma findThreadAux_exhaust (ts : List Thread) (n t : Nat) :
    ∀ (entries index fuel : Nat), index < n → entries < fuel →
      (∀ j, j < entries → (ts.getD ((index + j) % n) default).tid ≠ t
          ∧ (ts.getD ((index + j) % n) default).tid ≠ 0) →
      findThreadAux ts n t fuel index entries = none := by
  intro entries
  induction entries with
  | zero =>
    intro index fuel _ hf _
    obtain ⟨f, rfl⟩ : ∃ f, fuel = f + 1 := ⟨fuel - 1, by omega⟩
    simp [findThreadAux]
  | succ e ih =>
    intro index fuel hidx hf hall
    obtain ⟨f, rfl⟩ : ∃ f, fuel = f + 1 := ⟨fuel - 1, by omega⟩
    have h0 : (index + 0) % n = index := by rw [Nat.add_zero, Nat.mod_eq_of_lt hidx]
    have hcur := hall 0 (Nat.succ_pos e)
    rw [h0] at hcur
    simp only [findThreadAux]
    rw [if_neg (Nat.succ_ne_zero e), if_neg hcur.1, if_pos hcur.2,
      wrapIndex_eq_mod hidx]
    have hstep : e + 1 - 1 = e := rfl
    rw [hstep]
    apply ih ((index + 1) % n) f (Nat.mod_lt _ (by omega)) (by omega)
    intro j hj
    rw [mod_probe_shift]
    exact hall (j + 1) (by omega)

/-- Any slot index is reached by the wrapping probe sequence within `n`
steps. -/
lemma probe_offset_exists {n : Nat} (h j : Nat) (hh : h < n) (hj : j < n) :
    ∃ k, k < n ∧ (h + k) % n = j := by
  refine ⟨(j + n - h) % n, Nat.mod_lt _ (by omega), ?_⟩
  have h1 : (h + (j + n - h) % n) % n = (h + (j + n - h)) % n := by
    calc (h + (j + n - h) % n) % n
        = ((j + n - h) % n + h) % n := by rw [Nat.add_comm]
      _ = ((j + n - h) + h) % n := Nat.mod_add_mod _ _ _
      _ = (h + (j + n - h)) % n := by rw [Nat.add_comm]
  have h2 : h + (j + n - h) = j + n := by omega
  rw [h1, h2, Nat.add_mod_right, Nat.mod_eq_of_lt hj]

/-- The non-zero slots strictly before a non-zero probe position are
fewer than all non-zero slots: the probe positions are pairwise distinct
slots within one wrap. -/
lemma probe_countP_lt_countActive (ts : List Thread) (n : Nat) (hn : ts.length = n)
    (h k : Nat) (hh : h < n) (hk : k < n)
    (hhit : (ts.getD ((h + k) % n) default).tid ≠ 0) :
    (List.range k).countP (fun j => (ts.getD ((h + j) % n) default).tid ≠ 0)
      < countActive ts := by
  have hn0 : 0 < n := by omega
  have hca : countActive ts
      = (List.range n).countP (fun i => (ts.getD i default).tid ≠ 0) := by
    rw [countActive_eq_range_countP, hn]
  have hLnodup : ((List.range (k + 1)).map (fun j => (h + j) % n)).Nodup := by
    apply List.Nodup.map_on ?_ (List.nodup_range (k + 1))
    intro a ha b hb hab
    rw [List.mem_range] at ha hb
    have hmeq : a ≡ b [MOD n] :=
      Nat.ModEq.add_left_cancel' h (show h + a ≡ h + b [MOD n] from hab)
    have : a % n = b % n := hmeq
    rwa [Nat.mod_eq_of_lt (by omega), Nat.mod_eq_of_lt (by omega)] at this
  have hLsub : ((List.range (k + 1)).map (fun j => (h + j) % n)) ⊆ List.range n := by
    intro x hx
    rw [List.mem_map] at hx
    obtain ⟨j, _, rfl⟩ := hx
    rw [List.mem_range]
    exact Nat.mod_lt _ hn0
  have hle := (hLnodup.subperm hLsub).countP_le
    (fun i => decide ((ts.getD i default).tid ≠ 0))
  rw [List.countP_map] at hle
  have hsplit : (List.range (k + 1)).countP
        ((fun i => decide ((ts.getD i default).tid ≠ 0)) ∘ fun j => (h + j) % n)
      = (List.range k).countP
          (fun j => (ts.getD ((h + j) % n) default).tid ≠ 0) + 1 := by
    rw [List.range_succ, List.countP_append]
    have h1 : (List.range k).countP
          ((fun i => decide ((ts.getD i default).tid ≠ 0)) ∘ fun j => (h + j) % n)
        = (List.range k).countP
            (fun j => (ts.getD ((h + j) % n) default).tid ≠ 0) := rfl
    have h2 : ([k] : List Nat).countP
          ((fun i => decide ((ts.getD i default).tid ≠ 0)) ∘ fun j => (h + j) % n)
        = 1 := by
      simp only [List.countP_cons, List.countP_nil, Function.comp_apply]
      rw [if_pos (by simpa using hhit)]
    rw [h1, h2]
  rw [hsplit] at hle
  rw [hca]
  omega

/-- `FindThread` on an invariant-satisfying registry returns, for every
sufficient amount of fuel, a slot holding the present identifier. -/
lemma findThread_some (st : Threads) (t : Nat) (hinv : st.Inv) (ht : t ≠ 0)
    (hex : ∃ j, j < st.maxThreads ∧ tidAt st j = t) :
    ∃ i, i < st.maxThreads ∧ tidAt st i = t ∧
      ∀ fuel, st.maxThreads + 1 ≤ fuel →
        findThreadAux st.threads st.maxThreads t fuel (st.getHashEntry t)
          st.numThreads = some i := by
  obtain ⟨j, hj, hjt⟩ := hex
  have hn0 : 0 < st.maxThreads := by omega
  have hh : st.getHashEntry t < st.maxThreads := Nat.mod_lt _ hn0
  obtain ⟨k, hkn, hkj⟩ := probe_offset_exists (st.getHashEntry t) j hh hj
  have hP : ∃ k2, tidAt st ((st.getHashEntry t + k2) % st.maxThreads) = t :=
    ⟨k, by rw [hkj]; exact hjt⟩
  have hk0 := Nat.find_spec hP
  have hk0g : (st.threads.getD
      ((st.getHashEntry t + Nat.find hP) % st.maxThreads) default).tid = t := hk0
  have hk0lt : Nat.find hP < st.maxThreads :=
    Nat.lt_of_le_of_lt (Nat.find_min' hP (by rw [hkj]; exact hjt)) hkn
  have hmiss : ∀ j2, j2 < Nat.find hP →
      (st.threads.getD ((st.getHashEntry t + j2) % st.maxThreads) default).tid ≠ t :=
    fun j2 hj2 => Nat.find_min hP hj2
  have hcnt : (List.range (Nat.find hP)).countP
        (fun j2 => (st.threads.getD
          ((st.getHashEntry t + j2) % st.maxThreads) default).tid ≠ 0)
      < st.numThreads := by
    rw [hinv.2]
    exact probe_countP_lt_countActive st.threads st.maxThreads hinv.1
      (st.getHashEntry t) (Nat.find hP) hh hk0lt (by rw [hk0g]; exact ht)
  refine ⟨(st.getHashEntry t + Nat.find hP) % st.maxThreads,
    Nat.mod_lt _ hn0, hk0, fun fuel hf => ?_⟩
  exact findThreadAux_found st.threads st.maxThreads t (Nat.find hP)
    (st.getHashEntry t) st.numThreads fuel hh hk0lt hmiss hk0 hcnt (by omega)

/-- `FindThread` on an invariant-satisfying registry reports absence
when no slot holds the identifier, for every amount of fuel. -/
lemma findThread_none (st : Threads) (t : Nat) (hinv : st.Inv)
    (habs : ∀ j, j < st.maxThreads → tidAt st j ≠ t) :
    ∀ fuel, findThreadAux st.threads st.maxThreads t fuel (st.getHashEntry t)
      st.numThreads = none := by
  intro fuel
  by_cases hn0 : st.maxThreads = 0
  · have hts : st.threads = [] := List.length_eq_zero.mp (by rw [hinv.1, hn0])
    have hnum : st.numThreads = 0 := by
      rw [hinv.2, hts]; rfl
    cases fuel with
    | zero => simp [findThreadAux]
    | succ f => simp [findThreadAux, hnum]
  · exact findThreadAux_notFound st.threads st.maxThreads t habs fuel _ _
      (Nat.mod_lt _ (by omega))

/-! ## The `FindEmptyEntry` probe loop -/

lemma findEmptyAux_sound (ts : List Thread) (n : Nat) :
    ∀ (remaining index i : Nat), index < n →
      findEmptyAux ts n index remaining = some i →
      i < n ∧ (ts.getD i default).tid = 0 := by
  intro remaining
  induction remaining with
  | zero => intro index i _ h; simp [findEmptyAux] at h
  | succ remaining ih =>
    intro index i hidx h
    simp only [findEmptyAux] at h
    split at h
    · cases h
      constructor
      · exact hidx
      · assumption
    · exact ih _ _ (wrapIndex_lt hidx) h

/-- The empty-slot probe returns the first zero slot in probe order. -/
lemma findEmptyAux_found (ts : List Thread) (n : Nat) :
    ∀ (k index remaining : Nat), index < n → k < remaining →
      (∀ j, j < k → (ts.getD ((index + j) % n) default).tid ≠ 0) →
      (ts.getD ((index + k) % n) default).tid = 0 →
      findEmptyAux ts n index remaining = some ((index + k) % n) := by
  intro k
  induction k with
  | zero =>
    intro index remaining hidx hrem _ hhit
    obtain ⟨r, rfl⟩ : ∃ r, remaining = r + 1 := ⟨remaining - 1, by omega⟩
    have h0 : (index + 0) % n = index := by rw [Nat.add_zero, Nat.mod_eq_of_lt hidx]
    rw [h0] at hhit ⊢
    simp only [findEmptyAux]
    rw [if_pos hhit]
  | succ k ih =>
    intro index remaining hidx hrem hmiss hhit
    obtain ⟨r, rfl⟩ : ∃ r, remaining = r + 1 := ⟨remaining - 1, by omega⟩
    have h0 : (index + 0) % n = index := by rw [Nat.add_zero, Nat.mod_eq_of_lt hidx]
    have hcur : (ts.getD index default).tid ≠ 0 := by
      have := hmiss 0 (Nat.succ_pos k)
      rwa [h0] at this
    simp only [findEmptyAux]
    rw [if_neg hcur, wrapIndex_eq_mod hidx]
    have hres := ih ((index + 1) % n) r (Nat.mod_lt _ (by omega)) (by omega)
      (fun j hj => by rw [mod_probe_shift]; exact hmiss (j + 1) (by omega))
      (by rw [mod_probe_shift]; exact hhit)
    rw [hres, mod_probe_shift]

lemma findEmptyAux_none (ts : List Thread) (n : Nat) :
    ∀ (remaining index : Nat), index < n →
      (∀ j, j < remaining → (ts.getD ((index + j) % n) default).tid ≠ 0) →
      findEmptyAux ts n index remaining = none := by
  intro remaining
  induction remaining with
  | zero => intro index _ _; simp [findEmptyAux]
  | succ remaining ih =>
    intro index hidx hall
    have h0 : (index + 0) % n = index := by rw [Nat.add_zero, Nat.mod_eq_of_lt hidx]
    have hcur : (ts.getD index default).tid ≠ 0 := by
      have := hall 0 (Nat.succ_pos remaining)
      rwa [h0] at this
    simp only [findEmptyAux]
    rw [if_neg hcur, wrapIndex_eq_mod hidx]
    apply ih ((index + 1) % n) (Nat.mod_lt _ (by omega))
    intro j hj
    rw [mod_probe_shift]
    exact hall (j + 1) (by omega)

/-- Under the free-slot invariant, fewer active workers than capacity
means some slot is free. -/
lemma exists_zero_slot (st : Threads) (hinv : st.Inv)
    (hlt : st.numThreads < st.maxThreads) :
    ∃ j, j < st.maxThreads ∧ tidAt st j = 0 := by
  have hcnt : countActive st.threads < st.threads.length := by
    rw [hinv.1, ← hinv.2]; exact hlt
  by_contra hcon
  push_neg at hcon
  have hall : ∀ th ∈ st.threads, th.tid ≠ 0 := by
    intro th hth
    rw [List.mem_iff_getElem] at hth
    obtain ⟨j, hjlen, rfl⟩ := hth
    have hj : j < st.maxThreads := by rw [← hinv.1]; exact hjlen
    have := hcon j hj
    unfold tidAt at this
    rwa [List.getD_eq_getElem _ _ hjlen] at this
  have : countActive st.threads = st.threads.length := by
    unfold countActive
    rw [List.countP_eq_length]
    intro th hth
    simpa using hall th hth
  omega

/-- Under the free-slot invariant, `CreateThread` below capacity
succeeds, placing the identifier in the first free slot of its probe
sequence. -/
lemma createThread_some_of_lt (st : Threads) (t : Nat) (hinv : st.Inv)
    (hlt : st.numThreads < st.maxThreads) :
    ∃ k, k < st.maxThreads ∧
      (∀ j, j < k → tidAt st ((st.getHashEntry t + j) % st.maxThreads) ≠ 0) ∧
      tidAt st ((st.getHashEntry t + k) % st.maxThreads) = 0 ∧
      st.createThread t = some ((st.getHashEntry t + k) % st.maxThreads,
        { st with
          threads := st.threads.set ((st.getHashEntry t + k) % st.maxThreads)
            { st.threads.getD ((st.getHashEntry t + k) % st.maxThreads) default with
                tid := t, totalTimeNsecs := 0 },
          numThreads := st.numThreads + 1 }) := by
  have hn0 : 0 < st.maxThreads := by omega
  have hh : st.getHashEntry t < st.maxThreads := Nat.mod_lt _ hn0
  obtain ⟨j, hj, hjz⟩ := exists_zero_slot st hinv hlt
  obtain ⟨k, hkn, hkj⟩ := probe_offset_exists (st.getHashEntry t) j hh hj
  have hP : ∃ k2, tidAt st ((st.getHashEntry t + k2) % st.maxThreads) = 0 :=
    ⟨k, by rw [hkj]; exact hjz⟩
  have hk0 := Nat.find_spec hP
  have hk0g : (st.threads.getD
      ((st.getHashEntry t + Nat.find hP) % st.maxThreads) default).tid = 0 := hk0
  have hk0lt : Nat.find hP < st.maxThreads :=
    Nat.lt_of_le_of_lt (Nat.find_min' hP (by rw [hkj]; exact hjz)) hkn
  refine ⟨Nat.find hP, hk0lt, fun j2 hj2 => Nat.find_min hP hj2, hk0, ?_⟩
  have hempty : st.findEmptyEntry t
      = some ((st.getHashEntry t + Nat.find hP) % st.maxThreads) :=
    findEmptyAux_found st.threads st.maxThreads (Nat.find hP) (st.getHashEntry t)
      st.maxThreads hh hk0lt (fun j2 hj2 => Nat.find_min hP hj2) hk0g
  unfold Threads.createThread
  rw [if_neg (by omega), hempty]

/-! ## Claim C1 -/

/-- C1: for every registry state satisfying the free-slot invariant and
every (non-zero, per the identifier space of §3) identifier, `FindThread`
probes from the hash slot with wraparound, skipping zero slots, stopping
only on a match or after `num_threads_` non-zero slots; it returns a
slot holding the identifier exactly when one exists, and reports absence
otherwise.  The third conjunct expresses termination: every fuel bound
of at least `max_threads_ + 1` loop-condition checks yields the same
result, so the unbounded C loop terminates within that bound. -/
theorem C1_findThread_correct (st : Threads) (t : Nat) (hinv : st.Inv) (ht : t ≠ 0) :
    ((∃ j, j < st.maxThreads ∧ tidAt st j = t) →
      ∃ i, i < st.maxThreads ∧ tidAt st i = t ∧ st.findThread t = some i)
    ∧ ((∀ j, j < st.maxThreads → tidAt st j ≠ t) → st.findThread t = none)
    ∧ (∀ fuel, st.maxThreads + 1 ≤ fuel →
        findThreadAux st.threads st.maxThreads t fuel (st.getHashEntry t)
          st.numThreads = st.findThread t) := by
  refine ⟨?_, ?_, ?_⟩
  · intro hex
    obtain ⟨i, hi, hit, hfuel⟩ := findThread_some st t hinv ht hex
    exact ⟨i, hi, hit, hfuel (st.maxThreads + 1) le_rfl⟩
  · intro habs
    exact findThread_none st t hinv habs _
  · intro fuel hf
    by_cases hex : ∃ j, j < st.maxThreads ∧ tidAt st j = t
    · obtain ⟨i, _, _, hfe⟩ := findThread_some st t hinv ht hex
      show _ = st.findThread t
      unfold Threads.findThread
      rw [hfe fuel hf, hfe (st.maxThreads + 1) le_rfl]
    · push_neg at hex
      have habs : ∀ j, j < st.maxThreads → tidAt st j ≠ t := hex
      show _ = st.findThread t
      unfold Threads.findThread
      rw [findThread_none st t hinv habs fuel,
        findThread_none st t hinv habs (st.maxThreads + 1)]

/-- Concrete registry exercising C1 and the tombstone rule: capacity 4,
identifiers 5 and 13 both hashing to slot 1, the retired identifier 9's
slot 2 cleared to zero in the middle of the collision chain. -/
def stScenario : Threads :=
  { maxThreads := 4
    threads := [⟨0, 0, false⟩, ⟨5, 100, false⟩, ⟨0, 0, false⟩, ⟨13, 250, false⟩]
    numThreads := 2
    totalTimeNsecs := 7 }

theorem C1_findThread_correct_witness :
    stScenario.Inv ∧ (13 : Nat) ≠ 0 ∧
    (((∃ j, j < stScenario.maxThreads ∧ tidAt stScenario j = 13) →
      ∃ i, i < stScenario.maxThreads ∧ tidAt stScenario i = 13 ∧
        stScenario.findThread 13 = some i)
    ∧ ((∀ j, j < stScenario.maxThreads → tidAt stScenario j ≠ 13) →
        stScenario.findThread 13 = none)
    ∧ (∀ fuel, stScenario.maxThreads + 1 ≤ fuel →
        findThreadAux stScenario.threads stScenario.maxThreads 13 fuel
          (stScenario.getHashEntry 13) stScenario.numThreads
          = stScenario.findThread 13)) :=
  ⟨by decide, by decide, C1_findThread_correct stScenario 13 (by decide) (by decide)⟩

/-! ## Claim C10 -/

/-- The counterexample state for C10: one active worker whose slot
precedes the only free slot in probe order. -/
def stCX : Threads :=
  { maxThreads := 2
    threads := [⟨2, 0, false⟩, ⟨0, 0, false⟩]
    numThreads := 1
    totalTimeNsecs := 0 }

/-- C10 is false as stated: on `stCX` the registry is invariant-correct,
`active_count = 1 > 0`, slot 1 is free (`id = 0`), yet `find(0)` reports
absence — the single non-zero slot 2 ahead of the free slot exhausts the
`entries` counter before the zero slot is reached. -/
theorem C10_counterexample :
    stCX.Inv ∧ 0 < stCX.numThreads ∧ tidAt stCX 1 = 0 ∧
      stCX.findThread 0 = none := by decide

/-- C10 (amended): when `active_count > 0`, `find(0)`'s match test does
compare the queried identifier 0 against each slot's id before the
zero-skip check, so it returns the first free slot on the probe sequence
from index 0 — but only if fewer than `active_count` non-zero slots
precede that free slot; if `active_count` non-zero slots are examined
first, `find(0)` reports absence after all. -/
theorem C10_findZero_amended (st : Threads) (hinv : st.Inv)
    (_hpos : 0 < st.numThreads) (k0 : Nat) (hk0 : k0 < st.maxThreads)
    (hz : tidAt st k0 = 0) (hbefore : ∀ j, j < k0 → tidAt st j ≠ 0) :
    (k0 < st.numThreads → st.findThread 0 = some k0)
    ∧ (st.numThreads ≤ k0 → st.findThread 0 = none) := by
  have hn0 : 0 < st.maxThreads := by omega
  have hh : st.getHashEntry 0 = 0 := Nat.zero_mod _
  have hmod : ∀ j, j ≤ k0 → (st.getHashEntry 0 + j) % st.maxThreads = j := by
    intro j hj
    rw [hh, Nat.zero_add, Nat.mod_eq_of_lt (by omega)]
  constructor
  · intro hlt
    have hres := findThreadAux_found st.threads st.maxThreads 0 k0
      (st.getHashEntry 0) st.numThreads (st.maxThreads + 1)
      (by rw [hh]; exact hn0) hk0
      (fun j hj => by rw [hmod j (by omega)]; exact hbefore j hj)
      (by rw [hmod k0 le_rfl]; exact hz) ?_ (by omega)
    · show findThreadAux _ _ _ _ _ _ = _
      rw [hres, hmod k0 le_rfl]
    · apply Nat.lt_of_le_of_lt (List.countP_le_length _) ?_
      rw [List.length_range]
      exact hlt
  · intro hge
    have hnum_le : st.numThreads ≤ st.maxThreads := by
      have := List.countP_le_length
        (fun th => decide (th.tid ≠ 0)) (l := st.threads)
      have hlen := hinv.1
      have hcnt := hinv.2
      unfold countActive at hcnt
      omega
    apply findThreadAux_exhaust st.threads st.maxThreads 0 st.numThreads
      (st.getHashEntry 0) (st.maxThreads + 1) (by rw [hh]; exact hn0)
      (by omega)
    intro j hj
    have hjk : j < k0 := by omega
    have := hbefore j hjk
    rw [hmod j (by omega)]
    exact ⟨this, this⟩

def stC10b : Threads :=
  { maxThreads := 2
    threads := [⟨0, 0, false⟩, ⟨2, 0, false⟩]
    numThreads := 1
    totalTimeNsecs := 0 }

theorem C10_findZero_amended_witness :
    ((0 < stC10b.numThreads → stC10b.findThread 0 = some 0)
    ∧ (stC10b.numThreads ≤ 0 → stC10b.findThread 0 = none)) :=
  C10_findZero_amended stC10b (by decide) (by decide) 0 (by decide)
    (by decide) (by decide)

/-! ## Claim C6 -/

/-- C6: `CreateThread` (past its capacity check) locates the slot by
linear probing from `hash(id) = id mod capacity` with wraparound, taking
the first slot whose id is 0, and fails fatally when no empty slot is
found within `capacity` probes; the chosen slot is initialized with the
identifier, zero accumulated time and an idle signal, with
`num_threads_` incremented (the state returned carries the increment)
and all other slots untouched. -/
theorem C6_createThread_probes (st : Threads) (t : Nat) (hwf : st.WF)
    (hidle : st.FreeIdle) (hnum : st.numThreads ≠ st.maxThreads) :
    ((∃ k, k < st.maxThreads ∧
        tidAt st ((st.getHashEntry t + k) % st.maxThreads) = 0) →
      ∃ k st2, k < st.maxThreads ∧
        (∀ j, j < k → tidAt st ((st.getHashEntry t + j) % st.maxThreads) ≠ 0) ∧
        tidAt st ((st.getHashEntry t + k) % st.maxThreads) = 0 ∧
        st.createThread t
          = some ((st.getHashEntry t + k) % st.maxThreads, st2) ∧
        st2.threads.getD ((st.getHashEntry t + k) % st.maxThreads) default
          = ⟨t, 0, false⟩ ∧
        st2.numThreads = st.numThreads + 1 ∧
        st2.maxThreads = st.maxThreads ∧
        st2.totalTimeNsecs = st.totalTimeNsecs ∧
        (∀ j, j ≠ (st.getHashEntry t + k) % st.maxThreads →
          st2.threads.getD j default = st.threads.getD j default))
    ∧ ((∀ k, k < st.maxThreads →
          tidAt st ((st.getHashEntry t + k) % st.maxThreads) ≠ 0) →
        st.createThread t = none) := by
  constructor
  · intro hex
    have hn0 : 0 < st.maxThreads := by
      obtain ⟨k, hk, _⟩ := hex
      omega
    have hh : st.getHashEntry t < st.maxThreads := Nat.mod_lt _ hn0
    have hP : ∃ k, tidAt st ((st.getHashEntry t + k) % st.maxThreads) = 0 := by
      obtain ⟨k, _, hk0⟩ := hex
      exact ⟨k, hk0⟩
    have hk0 := Nat.find_spec hP
    have hk0g : (st.threads.getD
        ((st.getHashEntry t + Nat.find hP) % st.maxThreads) default).tid = 0 := hk0
    have hk0lt : Nat.find hP < st.maxThreads := by
      obtain ⟨k, hkn, hkz⟩ := hex
      exact Nat.lt_of_le_of_lt (Nat.find_min' hP hkz) hkn
    have hilen : (st.getHashEntry t + Nat.find hP) % st.maxThreads
        < st.threads.length := by
      rw [hwf]
      exact Nat.mod_lt _ hn0
    have hempty : st.findEmptyEntry t
        = some ((st.getHashEntry t + Nat.find hP) % st.maxThreads) :=
      findEmptyAux_found st.threads st.maxThreads (Nat.find hP)
        (st.getHashEntry t) st.maxThreads hh hk0lt
        (fun j hj => Nat.find_min hP hj) hk0g
    have hcreate : st.createThread t
        = some ((st.getHashEntry t + Nat.find hP) % st.maxThreads,
          { st with
            threads := st.threads.set
              ((st.getHashEntry t + Nat.find hP) % st.maxThreads)
              { st.threads.getD
                  ((st.getHashEntry t + Nat.find hP) % st.maxThreads) default with
                  tid := t, totalTimeNsecs := 0 },
            numThreads := st.numThreads + 1 }) := by
      unfold Threads.createThread
      rw [if_neg hnum, hempty]
    refine ⟨Nat.find hP, _, hk0lt, fun j hj => Nat.find_min hP hj, hk0,
      hcreate, ?_, rfl, rfl, rfl, ?_⟩
    · rw [getD_set_self _ hilen]
      have hpend : (st.threads.getD
          ((st.getHashEntry t + Nat.find hP) % st.maxThreads) default).pending
          = false := hidle _ hilen hk0g
      cases hget : st.threads.getD
          ((st.getHashEntry t + Nat.find hP) % st.maxThreads) default with
      | mk otid otime opend =>
        rw [hget] at hpend
        simp only at hpend
        simp [hpend]
    · intro j hj
      exact getD_set_ne _ (fun hcontra => hj hcontra.symm)
  · intro habs
    by_cases hn0 : st.maxThreads = 0
    · unfold Threads.createThread
      rw [if_neg hnum]
      have hempty : st.findEmptyEntry t = none := by
        unfold Threads.findEmptyEntry
        rw [hn0]
        rfl
      rw [hempty]
    · unfold Threads.createThread
      rw [if_neg hnum]
      have hempty : st.findEmptyEntry t = none :=
        findEmptyAux_none st.threads st.maxThreads st.maxThreads
          (st.getHashEntry t) (Nat.mod_lt _ (by omega)) habs
      rw [hempty]

theorem C6_createThread_probes_witness :
    stScenario.WF ∧ stScenario.FreeIdle ∧
      stScenario.numThreads ≠ stScenario.maxThreads ∧
    (((∃ k, k < stScenario.maxThreads ∧
        tidAt stScenario ((stScenario.getHashEntry 9 + k) % stScenario.maxThreads)
          = 0) →
      ∃ k st2, k < stScenario.maxThreads ∧
        (∀ j, j < k →
          tidAt stScenario
            ((stScenario.getHashEntry 9 + j) % stScenario.maxThreads) ≠ 0) ∧
        tidAt stScenario
          ((stScenario.getHashEntry 9 + k) % stScenario.maxThreads) = 0 ∧
        stScenario.createThread 9
          = some ((stScenario.getHashEntry 9 + k) % stScenario.maxThreads, st2) ∧
        st2.threads.getD
          ((stScenario.getHashEntry 9 + k) % stScenario.maxThreads) default
          = ⟨9, 0, false⟩ ∧
        st2.numThreads = stScenario.numThreads + 1 ∧
        st2.maxThreads = stScenario.maxThreads ∧
        st2.totalTimeNsecs = stScenario.totalTimeNsecs ∧
        (∀ j, j ≠ (stScenario.getHashEntry 9 + k) % stScenario.maxThreads →
          st2.threads.getD j default = stScenario.threads.getD j default))
    ∧ ((∀ k, k < stScenario.maxThreads →
          tidAt stScenario
            ((stScenario.getHashEntry 9 + k) % stScenario.maxThreads) ≠ 0) →
        stScenario.createThread 9 = none)) :=
  ⟨by decide, by decide, by decide,
    C6_createThread_probes stScenario 9 (by decide) (by decide) (by decide)⟩

/-! ## Sequences of `CreateThread` calls -/

lemma countActive_set_activate (ts : List Thread) (i : Nat) (a : Thread)
    (hi : i < ts.length) (hold : (ts.getD i default).tid = 0) (hnew : a.tid ≠ 0) :
    countActive (ts.set i a) = countActive ts + 1 := by
  have hbal := countP_set_balance (fun th => decide (th.tid ≠ 0)) ts i a hi
  simp only [] at hbal
  have hb1 : ¬(decide ((ts.getD i default).tid ≠ 0) = true) := by
    intro hc
    rw [decide_eq_true_eq] at hc
    exact hc hold
  have hb2 : decide (a.tid ≠ 0) = true := decide_eq_true hnew
  rw [if_neg hb1, if_pos hb2] at hbal
  unfold countActive
  omega

lemma countActive_set_deactivate (ts : List Thread) (i : Nat) (a : Thread)
    (hi : i < ts.length) (hold : (ts.getD i default).tid ≠ 0) (hnew : a.tid = 0) :
    countActive (ts.set i a) + 1 = countActive ts := by
  have hbal := countP_set_balance (fun th => decide (th.tid ≠ 0)) ts i a hi
  simp only [] at hbal
  have hb1 : decide ((ts.getD i default).tid ≠ 0) = true := decide_eq_true hold
  have hb2 : ¬(decide (a.tid ≠ 0) = true) := by
    intro hc
    rw [decide_eq_true_eq] at hc
    exact hc hnew
  rw [if_pos hb1, if_neg hb2] at hbal
  unfold countActive
  omega

lemma countActive_set_preserve (ts : List Thread) (i : Nat) (a : Thread)
    (hi : i < ts.length) (hsame : (a.tid ≠ 0) ↔ ((ts.getD i default).tid ≠ 0)) :
    countActive (ts.set i a) = countActive ts := by
  have hbal := countP_set_balance (fun th => decide (th.tid ≠ 0)) ts i a hi
  simp only [] at hbal
  by_cases hz : a.tid = 0
  · have hz2 : (ts.getD i default).tid = 0 := by
      by_contra hc
      exact (hsame.mpr hc) hz
    have hb1 : ¬(decide ((ts.getD i default).tid ≠ 0) = true) := by
      intro hc
      rw [decide_eq_true_eq] at hc
      exact hc hz2
    have hb2 : ¬(decide (a.tid ≠ 0) = true) := by
      intro hc
      rw [decide_eq_true_eq] at hc
      exact hc hz
    rw [if_neg hb1, if_neg hb2] at hbal
    unfold countActive
    omega
  · have hz2 : (ts.getD i default).tid ≠ 0 := hsame.mp hz
    have hb1 : decide ((ts.getD i default).tid ≠ 0) = true := decide_eq_true hz2
    have hb2 : decide (a.tid ≠ 0) = true := decide_eq_true hz
    rw [if_pos hb1, if_pos hb2] at hbal
    unfold countActive
    omega

/-- In a pair list with pairwise-distinct keys, the key determines the
pair. -/
lemma pair_eq_of_fst_nodup :
    ∀ (l : List (Nat × Nat)), (l.map Prod.fst).Nodup →
      ∀ p q, p ∈ l → q ∈ l → p.1 = q.1 → p = q := by
  intro l
  induction l with
  | nil => intro _ p q hp _ _; simp at hp
  | cons a l ih =>
    intro hnodup p q hp hq hfst
    rw [List.map_cons, List.nodup_cons] at hnodup
    rcases List.mem_cons.mp hp with hpa | hpl <;>
      rcases List.mem_cons.mp hq with hqa | hql
    · rw [hpa, hqa]
    · exfalso
      apply hnodup.1
      rw [List.mem_map]
      exact ⟨q, hql, by rw [← hfst, hpa]⟩
    · exfalso
      apply hnodup.1
      rw [List.mem_map]
      exact ⟨p, hpl, by rw [hfst, hqa]⟩
    · exact ih hnodup.2 p q hpl hql hfst

lemma initThreads_tidAt (cap j : Nat) : tidAt (initThreads cap) j = 0 := by
  unfold tidAt initThreads
  simp only
  rw [getD_replicate]
  rfl

lemma initThreads_inv (cap : Nat) : (initThreads cap).Inv := by
  constructor
  · unfold Threads.WF initThreads
    simp
  · unfold initThreads countActive
    simp only
    rw [List.countP_eq_zero.mpr]
    intro th hth
    rw [List.eq_of_mem_replicate hth]
    simp
    rfl

/-- Running `CreateThread` over pairwise-distinct non-zero identifiers
not yet in the table, with room for all of them: every call succeeds,
each identifier lands in a previously free slot, the recorded slots are
pairwise distinct, and untouched slots keep their contents. -/
lemma createAll_spec :
    ∀ (tids : List Nat) (st : Threads),
      st.Inv → tids.Nodup → (∀ t ∈ tids, t ≠ 0) →
      (∀ t ∈ tids, ∀ j, j < st.maxThreads → tidAt st j ≠ t) →
      st.numThreads + tids.length ≤ st.maxThreads →
      ∃ stf ps, createAll st tids = some (stf, ps) ∧
        stf.maxThreads = st.maxThreads ∧
        stf.numThreads = st.numThreads + tids.length ∧
        stf.Inv ∧
        ps.map Prod.fst = tids ∧
        (ps.map Prod.snd).Nodup ∧
        (∀ p ∈ ps, p.2 < st.maxThreads ∧ tidAt stf p.2 = p.1 ∧ tidAt st p.2 = 0) ∧
        (∀ j, (∀ p ∈ ps, p.2 ≠ j) →
          stf.threads.getD j default = st.threads.getD j default) := by
  intro tids
  induction tids with
  | nil =>
    intro st hinv _ _ _ _
    refine ⟨st, [], rfl, rfl, by simp, hinv, rfl, List.nodup_nil, ?_, ?_⟩
    · intro p hp
      simp at hp
    · intro j _
      rfl
  | cons t rest ih =>
    intro st hinv hnodup hnz hfresh hcap
    have htmem : t ∈ t :: rest := List.mem_cons_self t rest
    have htnz : t ≠ 0 := hnz t htmem
    have hlt : st.numThreads < st.maxThreads := by
      rw [List.length_cons] at hcap
      omega
    obtain ⟨k, hk, hkmiss, hkz, hcr⟩ := createThread_some_of_lt st t hinv hlt
    have hilen : (st.getHashEntry t + k) % st.maxThreads < st.threads.length := by
      rw [hinv.1]
      exact Nat.mod_lt _ (by omega)
    have hkzg : (st.threads.getD ((st.getHashEntry t + k) % st.maxThreads)
        default).tid = 0 := hkz
    -- the state right after creating `t`
    set i := (st.getHashEntry t + k) % st.maxThreads with hidef
    set st2 : Threads :=
      { st with
        threads := st.threads.set i
          { st.threads.getD i default with tid := t, totalTimeNsecs := 0 },
        numThreads := st.numThreads + 1 } with hst2
    have hst2max : st2.maxThreads = st.maxThreads := rfl
    have hst2tid_i : tidAt st2 i = t := by
      unfold tidAt
      show ((st.threads.set i _).getD i default).tid = t
      rw [getD_set_self _ hilen]
    have hst2tid_ne : ∀ j, j ≠ i → st2.threads.getD j default
        = st.threads.getD j default := by
      intro j hj
      exact getD_set_ne _ (fun hc => hj hc.symm)
    have hst2inv : st2.Inv := by
      constructor
      · unfold Threads.WF
        show (st.threads.set i _).length = st.maxThreads
        rw [List.length_set, hinv.1]
      · show st.numThreads + 1 = countActive (st.threads.set i _)
        rw [countActive_set_activate st.threads i _ hilen hkzg (by simpa using htnz),
          ← hinv.2]
    have hrest_nodup : rest.Nodup := (List.nodup_cons.mp hnodup).2
    have htnotin : t ∉ rest := (List.nodup_cons.mp hnodup).1
    have hrest_fresh : ∀ t2 ∈ rest, ∀ j, j < st2.maxThreads → tidAt st2 j ≠ t2 := by
      intro t2 ht2 j hj
      by_cases hji : j = i
      · rw [hji, hst2tid_i]
        intro hc
        exact htnotin (hc ▸ ht2)
      · unfold tidAt
        rw [hst2tid_ne j hji]
        exact hfresh t2 (List.mem_cons_of_mem t ht2) j hj
    have hrest_cap : st2.numThreads + rest.length ≤ st2.maxThreads := by
      show st.numThreads + 1 + rest.length ≤ st.maxThreads
      rw [List.length_cons] at hcap
      omega
    obtain ⟨stf, ps, hrun, hmax, hnum, hfinv, hfst, hsnd, hslots, hkeep⟩ :=
      ih st2 hst2inv hrest_nodup (fun t2 ht2 => hnz t2 (List.mem_cons_of_mem t ht2))
        hrest_fresh hrest_cap
    have hinotin : ∀ p ∈ ps, p.2 ≠ i := by
      intro p hp hc
      have := (hslots p hp).2.2
      rw [hc, hst2tid_i] at this
      exact htnz this
    have hstf_i : stf.threads.getD i default
        = { st.threads.getD i default with tid := t, totalTimeNsecs := 0 } := by
      rw [hkeep i (fun p hp => hinotin p hp)]
      show (st.threads.set i _).getD i default = _
      rw [getD_set_self _ hilen]
    refine ⟨stf, (t, i) :: ps, ?_, ?_, ?_, hfinv, ?_, ?_, ?_, ?_⟩
    · show createAll st (t :: rest) = some (stf, (t, i) :: ps)
      unfold createAll
      rw [hcr]
      simp only
      rw [hrun]
    · rw [hmax, hst2max]
    · rw [hnum]
      show st.numThreads + 1 + rest.length = st.numThreads + (t :: rest).length
      rw [List.length_cons]
      omega
    · rw [List.map_cons, hfst]
    · rw [List.map_cons, List.nodup_cons]
      constructor
      · intro hc
        rw [List.mem_map] at hc
        obtain ⟨p, hp, hpi⟩ := hc
        exact hinotin p hp hpi
      · exact hsnd
    · intro p hp
      rcases List.mem_cons.mp hp with hpa | hpl
      · rw [hpa]
        refine ⟨by rw [hidef]; exact Nat.mod_lt _ (by omega), ?_, hkz⟩
        unfold tidAt
        rw [hstf_i]
      · obtain ⟨hplt, hptid, hpz⟩ := hslots p hpl
        refine ⟨by rw [← hst2max]; exact hplt, hptid, ?_⟩
        unfold tidAt at hpz ⊢
        rw [← hst2tid_ne p.2 (hinotin p hpl)]
        exact hpz
    · intro j hj
      have hji : i ≠ j := hj (t, i) (List.mem_cons_self _ _)
      rw [hkeep j (fun p hp => hj p (List.mem_cons_of_mem _ hp))]
      exact hst2tid_ne j (fun hc => hji hc.symm)

lemma createAll_append (l1 l2 : List Nat) :
    ∀ st : Threads, createAll st (l1 ++ l2)
      = match createAll st l1 with
        | none => none
        | some (st1, ps1) =>
          match createAll st1 l2 with
          | none => none
          | some (st2, ps2) => some (st2, ps1 ++ ps2) := by
  induction l1 with
  | nil =>
    intro st
    show createAll st l2 = _
    simp only [createAll]
    cases createAll st l2 with
    | none => rfl
    | some r => cases r with | mk st2 ps2 => rfl
  | cons t l1 ih =>
    intro st
    show createAll st (t :: (l1 ++ l2)) = _
    simp only [createAll]
    cases st.createThread t with
    | none => rfl
    | some r =>
      cases r with
      | mk i st1 =>
        simp only
        rw [ih st1]
        cases createAll st1 l1 with
        | none => rfl
        | some r1 =>
          cases r1 with
          | mk stm ps1 =>
            simp only
            cases createAll stm l2 with
            | none => rfl
            | some r2 => cases r2 with | mk st2 ps2 => rfl

/-- Elimination for a successful `CreateThread`: the returned slot was
free and the new state is the old one with that slot initialized and the
count incremented. -/
lemma createThread_some_elim (st : Threads) (t i : Nat) (st2 : Threads)
    (h : st.createThread t = some (i, st2)) :
    i < st.maxThreads ∧ tidAt st i = 0 ∧
      st2 = { st with
        threads := st.threads.set i
          { st.threads.getD i default with tid := t, totalTimeNsecs := 0 },
        numThreads := st.numThreads + 1 } := by
  unfold Threads.createThread at h
  by_cases hnum : st.numThreads = st.maxThreads
  · rw [if_pos hnum] at h
    exact absurd h (by simp)
  · rw [if_neg hnum] at h
    cases heq : st.findEmptyEntry t with
    | none =>
      rw [heq] at h
      exact absurd h (by simp)
    | some i2 =>
      rw [heq] at h
      simp only at h
      have hpair := Option.some.inj h
      have hi2 : i2 = i := congrArg Prod.fst hpair
      have hst2 := congrArg Prod.snd hpair
      simp only at hst2
      by_cases hn0 : st.maxThreads = 0
      · exfalso
        unfold Threads.findEmptyEntry at heq
        rw [hn0] at heq
        simp [findEmptyAux] at heq
      · have hsound := findEmptyAux_sound st.threads st.maxThreads
          st.maxThreads (st.getHashEntry t) i2 (Nat.mod_lt _ (by omega)) heq
        subst hi2
        exact ⟨hsound.1, hsound.2, hst2.symm⟩

/-! ## Claim C2 -/

/-- C2: creating workers for pairwise-distinct non-zero identifiers
within capacity always succeeds, and afterwards `FindThread` on each
identifier returns exactly the slot `CreateThread` returned for it —
never a slot created for a different identifier (the recorded slots are
pairwise distinct and each holds its own identifier). -/
theorem C2_create_find_unique (cap : Nat) (tids : List Nat)
    (hnodup : tids.Nodup) (hnz : ∀ t ∈ tids, t ≠ 0) (hlen : tids.length ≤ cap) :
    ∃ stf ps, createAll (initThreads cap) tids = some (stf, ps) ∧
      ps.map Prod.fst = tids ∧ (ps.map Prod.snd).Nodup ∧
      ∀ p ∈ ps, tidAt stf p.2 = p.1 ∧ stf.findThread p.1 = some p.2 := by
  obtain ⟨stf, ps, hrun, hmax, hnum, hfinv, hfst, hsnd, hslots, hkeep⟩ :=
    createAll_spec tids (initThreads cap) (initThreads_inv cap) hnodup hnz
      (fun t ht j _ => by
        rw [initThreads_tidAt]
        exact fun hc => hnz t ht hc.symm)
      (by
        show (initThreads cap).numThreads + tids.length ≤ (initThreads cap).maxThreads
        unfold initThreads
        simp only
        omega)
  have hmaxcap : stf.maxThreads = cap := hmax
  refine ⟨stf, ps, hrun, hfst, hsnd, fun p hp => ?_⟩
  obtain ⟨hplt, hptid, _⟩ := hslots p hp
  have hpltc : p.2 < cap := hplt
  refine ⟨hptid, ?_⟩
  have hpnz : p.1 ≠ 0 := hnz p.1 (by rw [← hfst]; exact List.mem_map_of_mem _ hp)
  obtain ⟨i, hi, hit, hfind⟩ := findThread_some stf p.1 hfinv hpnz
    ⟨p.2, by rw [hmaxcap]; exact hpltc, hptid⟩
  have hieq : i = p.2 := by
    by_contra hne
    by_cases hmem : ∀ q ∈ ps, q.2 ≠ i
    · have hkeepi := hkeep i hmem
      unfold tidAt at hit
      rw [hkeepi] at hit
      have h0 : ((initThreads cap).threads.getD i default).tid = 0 :=
        initThreads_tidAt cap i
      rw [h0] at hit
      exact hpnz hit.symm
    · push_neg at hmem
      obtain ⟨q, hq, hqi⟩ := hmem
      have hqtid := (hslots q hq).2.1
      rw [hqi] at hqtid
      have hq1 : q.1 = p.1 := by rw [← hqtid, hit]
      have hqp := pair_eq_of_fst_nodup ps (by rw [hfst]; exact hnodup) q p hq hp hq1
      exact hne (by rw [← hqi, hqp])
  have hfind' : stf.findThread p.1 = some i := hfind (stf.maxThreads + 1) le_rfl
  rw [hfind', hieq]

theorem C2_create_find_unique_witness :
    ∃ stf ps, createAll (initThreads 4) [5, 9, 13] = some (stf, ps) ∧
      ps.map Prod.fst = [5, 9, 13] ∧ (ps.map Prod.snd).Nodup ∧
      ∀ p ∈ ps, tidAt stf p.2 = p.1 ∧ stf.findThread p.1 = some p.2 :=
  C2_create_find_unique 4 [5, 9, 13] (by decide) (by decide) (by decide)

/-! ## Claim C3 -/

/-- C3: `CreateThread` fails fatally exactly when `num_threads_` already
equals the capacity at the time of the call; in particular a run of
exactly `capacity` distinct creations from a fresh registry all succeed,
and a run of `capacity + 1` fails fatally. -/
theorem C3_capacity_bound :
    (∀ (st : Threads) (t : Nat), st.Inv →
      (st.createThread t = none ↔ st.numThreads = st.maxThreads))
    ∧ (∀ (cap : Nat) (tids : List Nat), tids.Nodup → (∀ t ∈ tids, t ≠ 0) →
        tids.length = cap →
        ∃ stf ps, createAll (initThreads cap) tids = some (stf, ps))
    ∧ (∀ (cap : Nat) (tids : List Nat), tids.Nodup → (∀ t ∈ tids, t ≠ 0) →
        tids.length = cap + 1 → createAll (initThreads cap) tids = none) := by
  refine ⟨?_, ?_, ?_⟩
  · intro st t hinv
    constructor
    · intro hnone
      by_contra hne
      have hle : st.numThreads ≤ st.maxThreads := by
        have h1 := List.countP_le_length
          (fun th => decide (th.tid ≠ 0)) (l := st.threads)
        have h2 : st.threads.length = st.maxThreads := hinv.1
        have h3 := hinv.2
        unfold countActive at h3
        omega
      obtain ⟨k, _, _, _, hcr⟩ :=
        createThread_some_of_lt st t hinv (by omega)
      rw [hcr] at hnone
      exact absurd hnone (by simp)
    · intro heq
      unfold Threads.createThread
      rw [if_pos heq]
  · intro cap tids hnodup hnz hlen
    obtain ⟨stf, ps, hrun, _⟩ :=
      createAll_spec tids (initThreads cap) (initThreads_inv cap) hnodup hnz
        (fun t ht j _ => by
          rw [initThreads_tidAt]
          exact fun hc => hnz t ht hc.symm)
        (by
          show (initThreads cap).numThreads + tids.length
            ≤ (initThreads cap).maxThreads
          unfold initThreads
          simp only
          omega)
    exact ⟨stf, ps, hrun⟩
  · intro cap tids hnodup hnz hlen
    have htake_len : (tids.take cap).length = cap := by
      rw [List.length_take, hlen]
      omega
    have hdrop_len : (tids.drop cap).length = 1 := by
      rw [List.length_drop, hlen]
      omega
    obtain ⟨tlast, hdrop⟩ := List.length_eq_one.mp hdrop_len
    obtain ⟨st1, ps1, hrun1, hmax1, hnum1, _⟩ :=
      createAll_spec (tids.take cap) (initThreads cap) (initThreads_inv cap)
        (List.Nodup.sublist (List.take_sublist cap tids) hnodup)
        (fun t ht => hnz t (List.take_subset cap tids ht))
        (fun t ht j _ => by
          rw [initThreads_tidAt]
          exact fun hc => hnz t (List.take_subset cap tids ht) hc.symm)
        (by
          show (initThreads cap).numThreads + (tids.take cap).length
            ≤ (initThreads cap).maxThreads
          unfold initThreads
          simp only
          omega)
    have hnum_max : st1.numThreads = st1.maxThreads := by
      rw [hnum1, hmax1, htake_len]
      show (initThreads cap).numThreads + cap = (initThreads cap).maxThreads
      unfold initThreads
      simp
    have hcreate_none : st1.createThread tlast = none := by
      unfold Threads.createThread
      rw [if_pos hnum_max]
    conv_lhs => rw [← List.take_append_drop cap tids]
    rw [createAll_append, hrun1]
    simp only
    rw [hdrop]
    simp only [createAll, hcreate_none]

theorem C3_capacity_bound_witness :
    (stScenario.createThread 6 = none
      ↔ stScenario.numThreads = stScenario.maxThreads)
    ∧ (∃ stf ps, createAll (initThreads 2) [7, 8] = some (stf, ps))
    ∧ (createAll (initThreads 2) [7, 8, 9] = none) :=
  ⟨C3_capacity_bound.1 stScenario 6 (by decide),
    C3_capacity_bound.2.1 2 [7, 8] (by decide) (by decide) (by decide),
    C3_capacity_bound.2.2 2 [7, 8, 9] (by decide) (by decide) (by decide)⟩

/-! ## Claim C9 -/

/-- C9: a slot is free exactly when its id is 0 (that is how both probe
loops and the shutdown walk classify slots), and the invariant
`num_threads_ = number of non-zero-id slots` holds for the fresh
registry (all slots zero, count zero) and is preserved by every
completed `CreateThread` with a non-zero identifier and by every
completed per-slot retirement (`THREAD_DONE` handshake followed by
`Finish`). -/
theorem C9_invariant_preserved :
    (∀ cap : Nat, (initThreads cap).Inv ∧ ∀ i, tidAt (initThreads cap) i = 0)
    ∧ (∀ (st : Threads) (t i : Nat) (st2 : Threads), st.Inv → t ≠ 0 →
        st.createThread t = some (i, st2) → st2.Inv)
    ∧ (∀ (st : Threads) (i : Nat), st.Inv → i < st.maxThreads →
        tidAt st i ≠ 0 → ((st.signalDone i).finish i).Inv) := by
  refine ⟨?_, ?_, ?_⟩
  · intro cap
    exact ⟨initThreads_inv cap, fun i => initThreads_tidAt cap i⟩
  · intro st t i st2 hinv htnz hcr
    obtain ⟨hi, hzero, hst2⟩ := createThread_some_elim st t i st2 hcr
    have hilen : i < st.threads.length := by
      rw [hinv.1]
      exact hi
    subst hst2
    constructor
    · show (st.threads.set i _).length = st.maxThreads
      rw [List.length_set, hinv.1]
    · show st.numThreads + 1 = countActive (st.threads.set i _)
      rw [countActive_set_activate st.threads i _ hilen hzero
        (by simpa using htnz), ← hinv.2]
  · intro st i hinv hi htid
    have hilen : i < st.threads.length := by
      rw [hinv.1]
      exact hi
    have hcnt1 : 1 ≤ countActive st.threads := by
      unfold countActive
      rw [Nat.succ_le_iff, List.countP_pos_iff]
      refine ⟨st.threads.getD i default, ?_, ?_⟩
      · rw [List.getD_eq_getElem _ _ hilen]
        exact List.getElem_mem hilen
      · exact decide_eq_true htid
    -- the slot after the handshake
    have hsig_len : (st.signalDone i).threads.length = st.threads.length := by
      unfold Threads.signalDone
      simp only
      rw [List.length_set]
    have hsig_getD : (st.signalDone i).threads.getD i default
        = { st.threads.getD i default with
            totalTimeNsecs := (st.threads.getD i default).totalTimeNsecs
              + AllocExecute .threadDone,
            pending := false } := by
      unfold Threads.signalDone
      simp only
      rw [getD_set_self _ hilen]
    have hsig_count : countActive (st.signalDone i).threads
        = countActive st.threads := by
      unfold Threads.signalDone
      simp only
      exact countActive_set_preserve st.threads i _ hilen (by simp)
    constructor
    · show ((st.signalDone i).threads.set i _).length = (st.signalDone i).maxThreads
      rw [List.length_set, hsig_len, hinv.1]
      rfl
    · show (st.signalDone i).numThreads - 1
        = countActive ((st.signalDone i).threads.set i _)
      have hdeact := countActive_set_deactivate (st.signalDone i).threads i
        { (st.signalDone i).threads.getD i default with tid := 0 }
        (by rw [hsig_len]; exact hilen)
        (by rw [hsig_getD]; exact htid)
        rfl
      rw [hsig_count] at hdeact
      have hnum : (st.signalDone i).numThreads = st.numThreads := rfl
      rw [hnum, hinv.2, ← hdeact, Nat.add_sub_cancel]

def stAfter5 : Threads :=
  { maxThreads := 4
    threads := [⟨0, 0, false⟩, ⟨5, 0, false⟩, ⟨0, 0, false⟩, ⟨0, 0, false⟩]
    numThreads := 1
    totalTimeNsecs := 0 }

theorem C9_invariant_preserved_witness :
    ((initThreads 4).Inv ∧ ∀ i, tidAt (initThreads 4) i = 0)
    ∧ stAfter5.Inv ∧ ((stScenario.signalDone 1).finish 1).Inv :=
  ⟨C9_invariant_preserved.1 4,
    C9_invariant_preserved.2.1 (initThreads 4) 5 1 stAfter5 (by decide) (by decide)
      (by decide),
    C9_invariant_preserved.2.2 stScenario 1 (by decide) (by decide) (by decide)⟩

/-! ## The `FinishAll` walk -/

/-- What one occupied-slot step of `FinishAll` does to the state. -/
lemma finishStep_occupied (st : Threads) (acc : List Nat) (i : Nat)
    (hilen : i < st.threads.length)
    (hocc : (st.threads.getD i default).tid ≠ 0) :
    finishStep (st, acc) i = ((st.signalDone i).finish i, acc ++ [i]) ∧
    ((st.signalDone i).finish i).maxThreads = st.maxThreads ∧
    ((st.signalDone i).finish i).threads.length = st.threads.length ∧
    ((st.signalDone i).finish i).numThreads = st.numThreads - 1 ∧
    ((st.signalDone i).finish i).totalTimeNsecs
      = st.totalTimeNsecs + (st.threads.getD i default).totalTimeNsecs ∧
    (((st.signalDone i).finish i).threads.getD i default).tid = 0 ∧
    (∀ j, j ≠ i → ((st.signalDone i).finish i).threads.getD j default
      = st.threads.getD j default) := by
  have hsig_getD : (st.signalDone i).threads.getD i default
      = { st.threads.getD i default with
          totalTimeNsecs := (st.threads.getD i default).totalTimeNsecs
            + AllocExecute .threadDone,
          pending := false } := by
    unfold Threads.signalDone
    simp only
    rw [getD_set_self _ hilen]
  have hsig_len : (st.signalDone i).threads.length = st.threads.length := by
    unfold Threads.signalDone
    simp only
    rw [List.length_set]
  refine ⟨by unfold finishStep; rw [if_pos hocc], rfl, ?_, rfl, ?_, ?_, ?_⟩
  · show ((st.signalDone i).threads.set i _).length = st.threads.length
    rw [List.length_set, hsig_len]
  · show (st.signalDone i).totalTimeNsecs
        + ((st.signalDone i).threads.getD i default).totalTimeNsecs = _
    rw [hsig_getD]
    show st.totalTimeNsecs + ((st.threads.getD i default).totalTimeNsecs
      + AllocExecute .threadDone) = _
    show st.totalTimeNsecs + ((st.threads.getD i default).totalTimeNsecs + 0) = _
    omega
  · show (((st.signalDone i).threads.set i
        { (st.signalDone i).threads.getD i default with tid := 0 }).getD i
          default).tid = 0
    rw [getD_set_self _ (by rw [hsig_len]; exact hilen)]
  · intro j hj
    show ((st.signalDone i).threads.set i _).getD j default = _
    rw [getD_set_ne _ (fun hc => hj hc.symm)]
    unfold Threads.signalDone
    simp only
    rw [getD_set_ne _ (fun hc => hj hc.symm)]

/-- The `FinishAll` fold over any duplicate-free list of in-range slot
indices: every listed occupied slot is signalled and joined in list
order, its identifier cleared and its time folded into the total; other
slots are untouched. -/
lemma finishFold_spec :
    ∀ (L : List Nat) (st : Threads) (acc : List Nat),
      L.Nodup → (∀ i ∈ L, i < st.threads.length) →
      (L.foldl finishStep (st, acc)).1.maxThreads = st.maxThreads ∧
      (L.foldl finishStep (st, acc)).1.threads.length = st.threads.length ∧
      (L.foldl finishStep (st, acc)).2
        = acc ++ L.filter (fun i => (st.threads.getD i default).tid ≠ 0) ∧
      (∀ j ∈ L, ((L.foldl finishStep (st, acc)).1.threads.getD j default).tid = 0) ∧
      (∀ j, j ∉ L → (L.foldl finishStep (st, acc)).1.threads.getD j default
        = st.threads.getD j default) ∧
      (L.foldl finishStep (st, acc)).1.totalTimeNsecs
        = st.totalTimeNsecs
          + ((L.filter (fun i => (st.threads.getD i default).tid ≠ 0)).map
              (fun i => (st.threads.getD i default).totalTimeNsecs)).sum ∧
      (L.foldl finishStep (st, acc)).1.numThreads
        = st.numThreads
          - (L.filter (fun i => (st.threads.getD i default).tid ≠ 0)).length := by
  intro L
  induction L with
  | nil =>
    intro st acc _ _
    refine ⟨rfl, rfl, by simp, ?_, fun j _ => rfl, by simp, by simp⟩
    intro j hj
    simp at hj
  | cons i L ih =>
    intro st acc hnodup hrange
    have hilen : i < st.threads.length := hrange i (List.mem_cons_self _ _)
    have hinotin : i ∉ L := (List.nodup_cons.mp hnodup).1
    have hLnodup : L.Nodup := (List.nodup_cons.mp hnodup).2
    rw [List.foldl_cons]
    by_cases hocc : (st.threads.getD i default).tid = 0
    · -- free slot: skipped
      have hstep : finishStep (st, acc) i = (st, acc) := by
        unfold finishStep
        rw [if_neg (not_not_intro hocc)]
      rw [hstep]
      obtain ⟨h1, h2, h3, h4, h5, h6, h7⟩ :=
        ih st acc hLnodup (fun j hj => hrange j (List.mem_cons_of_mem _ hj))
      have hfilt : (i :: L).filter (fun j => (st.threads.getD j default).tid ≠ 0)
          = L.filter (fun j => (st.threads.getD j default).tid ≠ 0) := by
        rw [List.filter_cons, if_neg]
        intro hc
        rw [decide_eq_true_eq] at hc
        exact hc hocc
      refine ⟨h1, h2, by rw [hfilt]; exact h3, ?_, ?_, by rw [hfilt]; exact h6,
        by rw [hfilt]; exact h7⟩
      · intro j hj
        rcases List.mem_cons.mp hj with hji | hjL
        · subst hji
          rw [h5 j hinotin, hocc]
        · exact h4 j hjL
      · intro j hj
        exact h5 j (fun hc => hj (List.mem_cons_of_mem _ hc))
    · -- occupied slot: signalled, joined, cleared
      obtain ⟨hstep, hmax1, hlen1, hnum1, htot1, htid1, hkeep1⟩ :=
        finishStep_occupied st acc i hilen hocc
      rw [hstep]
      obtain ⟨h1, h2, h3, h4, h5, h6, h7⟩ :=
        ih ((st.signalDone i).finish i) (acc ++ [i]) hLnodup
          (fun j hj => by
            rw [hlen1]
            exact hrange j (List.mem_cons_of_mem _ hj))
      have hfilt_eq : L.filter
            (fun j => (((st.signalDone i).finish i).threads.getD j default).tid ≠ 0)
          = L.filter (fun j => (st.threads.getD j default).tid ≠ 0) :=
        List.filter_congr (fun j hj => by
          rw [hkeep1 j (fun hc => hinotin (hc ▸ hj))])
      have hmap_eq : (L.filter (fun j => (st.threads.getD j default).tid ≠ 0)).map
            (fun j => (((st.signalDone i).finish i).threads.getD j default).totalTimeNsecs)
          = (L.filter (fun j => (st.threads.getD j default).tid ≠ 0)).map
              (fun j => (st.threads.getD j default).totalTimeNsecs) :=
        List.map_congr_left (fun j hj => by
          have hjL : j ∈ L := (List.mem_filter.mp hj).1
          rw [hkeep1 j (fun hc => hinotin (hc ▸ hjL))])
      have hfilt_cons : (i :: L).filter
            (fun j => (st.threads.getD j default).tid ≠ 0)
          = i :: L.filter (fun j => (st.threads.getD j default).tid ≠ 0) := by
        rw [List.filter_cons, if_pos (decide_eq_true hocc)]
      refine ⟨by rw [h1, hmax1], by rw [h2, hlen1], ?_, ?_, ?_, ?_, ?_⟩
      · rw [h3, hfilt_eq, hfilt_cons, List.append_assoc]
        rfl
      · intro j hj
        rcases List.mem_cons.mp hj with hji | hjL
        · subst hji
          rw [h5 j hinotin, htid1]
        · exact h4 j hjL
      · intro j hj
        have hji : j ≠ i := fun hc => hj (hc ▸ List.mem_cons_self _ _)
        have hjL : j ∉ L := fun hc => hj (List.mem_cons_of_mem _ hc)
        rw [h5 j hjL, hkeep1 j hji]
      · rw [h6, hfilt_eq, hmap_eq, htot1, hfilt_cons, List.map_cons, List.sum_cons]
        omega
      · rw [h7, hfilt_eq, hnum1, hfilt_cons, List.length_cons]
        omega

/-- Sums over the occupied slots themselves and over their indices
agree. -/
lemma sum_over_range_filter (ts : List Thread) (f : Thread → Nat) (p : Thread → Bool) :
    (((List.range ts.length).filter (fun i => p (ts.getD i default))).map
      (fun i => f (ts.getD i default))).sum
      = ((ts.filter p).map f).sum := by
  conv_rhs => rw [← map_getD_range ts]
  rw [List.filter_map, List.map_map]
  rfl

/-! ## Claim C4 -/

/-- C4: after `FinishAll` on an invariant-satisfying registry, every
slot's identifier is 0, `num_threads_` is 0, and `total_time_nsecs_`
grew by exactly the sum of the accumulated times of the slots that were
occupied at the call; the slots processed (signalled with `THREAD_DONE`
and joined, one fully before the next) are exactly the occupied ones,
in storage order. -/
theorem C4_finishAll_drains (st : Threads) (hinv : st.Inv) :
    (∀ j, ((st.finishAll).1.threads.getD j default).tid = 0) ∧
    (st.finishAll).1.numThreads = 0 ∧
    (st.finishAll).1.totalTimeNsecs
      = st.totalTimeNsecs
        + ((st.threads.filter (fun th => th.tid ≠ 0)).map
            Thread.totalTimeNsecs).sum ∧
    (st.finishAll).2
      = (List.range st.maxThreads).filter (fun i => tidAt st i ≠ 0) := by
  obtain ⟨h1, h2, h3, h4, h5, h6, h7⟩ :=
    finishFold_spec (List.range st.maxThreads) st [] (List.nodup_range _)
      (fun i hi => by
        rw [hinv.1]
        exact List.mem_range.mp hi)
  have hfold : st.finishAll = (List.range st.maxThreads).foldl finishStep (st, []) :=
    rfl
  have hcount : ((List.range st.maxThreads).filter
        (fun i => (st.threads.getD i default).tid ≠ 0)).length
      = st.numThreads := by
    rw [← List.countP_eq_length_filter, hinv.2, countActive_eq_range_countP,
      hinv.1]
  refine ⟨?_, ?_, ?_, ?_⟩
  · intro j
    rw [hfold]
    by_cases hj : j < st.maxThreads
    · exact h4 j (List.mem_range.mpr hj)
    · rw [h5 j (fun hc => hj (List.mem_range.mp hc))]
      rw [List.getD_eq_default _ _ (by rw [hinv.1]; omega)]
      rfl
  · rw [hfold, h7, hcount]
    omega
  · rw [hfold, h6]
    have := sum_over_range_filter st.threads Thread.totalTimeNsecs
      (fun th => th.tid ≠ 0)
    rw [hinv.1] at this
    rw [this]
  · rw [hfold, h3, List.nil_append]
    exact List.filter_congr (fun i _ => rfl)

theorem C4_finishAll_drains_witness :
    stScenario.Inv ∧
    ((∀ j, ((stScenario.finishAll).1.threads.getD j default).tid = 0) ∧
    (stScenario.finishAll).1.numThreads = 0 ∧
    (stScenario.finishAll).1.totalTimeNsecs
      = stScenario.totalTimeNsecs
        + ((stScenario.threads.filter (fun th => th.tid ≠ 0)).map
            Thread.totalTimeNsecs).sum ∧
    (stScenario.finishAll).2
      = (List.range stScenario.maxThreads).filter
          (fun i => tidAt stScenario i ≠ 0)) :=
  ⟨by decide, C4_finishAll_drains stScenario (by decide)⟩

/-! ## Claim C5 -/

/-- C5: a worker receiving the `THREAD_DONE` sentinel records zero
elapsed time for it, a worker's accumulated time over a script of
operations followed by the sentinel is exactly the sum of the operation
durations, and consequently `total_time_nsecs_` after `FinishAll` on a
fresh-total registry is the sum, over the occupied slots, of the
durations of the allocator operations each worker actually executed —
with no contribution from the sentinel itself. -/
theorem C5_done_records_zero_time :
    AllocExecute AllocEntry.threadDone = 0 ∧
    (∀ ops : List Nat,
      threadRunnerTime (ops.map AllocEntry.alloc ++ [AllocEntry.threadDone])
        = ops.sum) ∧
    (∀ (st : Threads) (scripts : Nat → List Nat), st.Inv →
      st.totalTimeNsecs = 0 →
      (∀ i, i < st.maxThreads → tidAt st i ≠ 0 →
        (st.threads.getD i default).totalTimeNsecs
          = threadRunnerTime
              ((scripts i).map AllocEntry.alloc ++ [AllocEntry.threadDone])) →
      (st.finishAll).1.totalTimeNsecs
        = (((List.range st.maxThreads).filter (fun i => tidAt st i ≠ 0)).map
            (fun i => (scripts i).sum)).sum) := by
  have hrun : ∀ ops : List Nat,
      threadRunnerTime (ops.map AllocEntry.alloc ++ [AllocEntry.threadDone])
        = ops.sum := by
    intro ops
    induction ops with
    | nil => rfl
    | cons d rest ihops =>
      rw [List.map_cons, List.cons_append]
      show AllocExecute (.alloc d) + threadRunnerTime _ = (d :: rest).sum
      rw [ihops, List.sum_cons]
      rfl
  refine ⟨rfl, hrun, ?_⟩
  intro st scripts hinv htot0 htimes
  obtain ⟨h1, h2, h3, h4, h5, h6, h7⟩ :=
    finishFold_spec (List.range st.maxThreads) st [] (List.nodup_range _)
      (fun i hi => by
        rw [hinv.1]
        exact List.mem_range.mp hi)
  have hfold : st.finishAll = (List.range st.maxThreads).foldl finishStep (st, []) :=
    rfl
  rw [hfold, h6, htot0, Nat.zero_add]
  have hfilt : (List.range st.maxThreads).filter
        (fun i => (st.threads.getD i default).tid ≠ 0)
      = (List.range st.maxThreads).filter (fun i => tidAt st i ≠ 0) :=
    List.filter_congr (fun i _ => rfl)
  rw [hfilt]
  refine congrArg List.sum (List.map_congr_left ?_)
  intro i hi
  have hiL : i ∈ List.range st.maxThreads := (List.mem_filter.mp hi).1
  have hocc : tidAt st i ≠ 0 := by
    have := (List.mem_filter.mp hi).2
    rw [decide_eq_true_eq] at this
    exact this
  rw [htimes i (List.mem_range.mp hiL) hocc, hrun]

/-- A registry with two occupied workers whose accumulated times are
the script sums 5+7 and 11. -/
def stTimes : Threads :=
  { maxThreads := 4
    threads := [⟨0, 0, false⟩, ⟨5, 12, false⟩, ⟨0, 0, false⟩, ⟨13, 11, false⟩]
    numThreads := 2
    totalTimeNsecs := 0 }

def scriptsW : Nat → List Nat := fun i => if i = 1 then [5, 7] else [11]

theorem C5_done_records_zero_time_witness :
    stTimes.Inv ∧ stTimes.totalTimeNsecs = 0 ∧
    (∀ i, i < stTimes.maxThreads → tidAt stTimes i ≠ 0 →
      (stTimes.threads.getD i default).totalTimeNsecs
        = threadRunnerTime
            ((scriptsW i).map AllocEntry.alloc ++ [AllocEntry.threadDone])) ∧
    (stTimes.finishAll).1.totalTimeNsecs
      = (((List.range stTimes.maxThreads).filter
          (fun i => tidAt stTimes i ≠ 0)).map (fun i => (scriptsW i).sum)).sum :=
  ⟨by decide, rfl, by decide,
    C5_done_records_zero_time.2.2 stTimes scriptsW (by decide) rfl (by decide)⟩

/-! ## The `WaitForAllToQuiesce` walk (claim C8) -/

/-- The quiescence walk visits, in storage order, exactly the occupied
slots among the next `fuel` positions, provided the occupied-slot count
of the rest of the array matches what the loop still expects. -/
lemma waitGo_spec (ts : List Thread) (num : Nat) :
    ∀ (fuel i seen : Nat), i + fuel = ts.length →
      seen + countActive (ts.drop i) = num →
      waitGo ts num fuel i seen
        = some ((List.range' i fuel).filter
            (fun j => (ts.getD j default).tid ≠ 0)) := by
  intro fuel
  induction fuel with
  | zero =>
    intro i seen hlen hcnt
    have hdrop : ts.drop i = [] := List.drop_eq_nil_of_le (by omega)
    rw [hdrop] at hcnt
    have hseen : ¬ seen < num := by
      unfold countActive at hcnt
      simp only [List.countP_nil] at hcnt
      omega
    unfold waitGo
    rw [if_neg hseen]
    rfl
  | succ fuel ihf =>
    intro i seen hlen hcnt
    have hi : i < ts.length := by omega
    have hdrop_cons : ts.drop i = ts[i] :: ts.drop (i + 1) :=
      List.drop_eq_getElem_cons hi
    have hgetD : ts.getD i default = ts[i] := List.getD_eq_getElem _ _ hi
    have hcnt_split : countActive (ts.drop i)
        = countActive (ts.drop (i + 1))
          + (if decide (ts[i].tid ≠ 0) = true then 1 else 0) := by
      rw [hdrop_cons]
      unfold countActive
      rw [List.countP_cons]
    unfold waitGo
    by_cases hseen : seen < num
    · rw [if_pos hseen]
      by_cases hz : ts[i].tid = 0
      · have hnotocc : ¬ (ts.getD i default).tid ≠ 0 := by
          rw [hgetD]
          exact not_not_intro hz
        rw [if_neg hnotocc]
        have hdec : decide (ts[i].tid ≠ 0) = false := by
          rw [hz]
          rfl
        rw [ihf (i + 1) seen (by omega) (by
          rw [hcnt_split, hdec] at hcnt
          simpa using hcnt)]
        rw [List.range'_succ, List.filter_cons,
          if_neg (by rw [decide_eq_true_eq]; exact hnotocc)]
      · have hocc : (ts.getD i default).tid ≠ 0 := by
          rw [hgetD]
          exact hz
        rw [if_pos hocc]
        have hdec : decide (ts[i].tid ≠ 0) = true := decide_eq_true hz
        rw [ihf (i + 1) (seen + 1) (by omega) (by
          rw [hcnt_split, hdec] at hcnt
          rw [if_pos rfl] at hcnt
          omega)]
        rw [List.range'_succ, List.filter_cons,
          if_pos (decide_eq_true hocc)]
        rfl
    · rw [if_neg hseen]
      have hz : countActive (ts.drop i) = 0 := by omega
      have hall : ∀ j ∈ List.range' i (fuel + 1),
          ¬ (decide ((ts.getD j default).tid ≠ 0) = true) := by
        intro j hj
        rw [decide_eq_true_eq, not_not]
        have hij : i ≤ j := (List.mem_range'_1.mp hj).1
        by_cases hjlen : j < ts.length
        · have hmem : ts[j] ∈ ts.drop i := by
            have h1 : j - i < (ts.drop i).length := by
              rw [List.length_drop]
              omega
            have h2 : (ts.drop i)[j - i] = ts[j] := by
              rw [List.getElem_drop]
              congr 1
              omega
            rw [← h2]
            exact List.getElem_mem h1
          have := List.countP_eq_zero.mp hz ts[j] hmem
          rw [List.getD_eq_getElem _ _ hjlen]
          by_contra hc
          exact this (decide_eq_true hc)
        · rw [List.getD_eq_default _ _ (by omega)]
          rfl
      rw [List.filter_eq_nil_iff.mpr hall]

/-- C8: `WaitForAllToQuiesce` on an invariant-satisfying registry walks
the slots in storage order from index 0, calls `WaitForReady` exactly
once on each occupied slot, and stops after exactly `num_threads_`
occupied slots — so the visited indices are precisely all occupied
slots, in increasing order, each once. -/
theorem C8_quiescence_barrier (st : Threads) (hinv : st.Inv) :
    st.waitForAllToQuiesce
      = some ((List.range st.maxThreads).filter (fun i => tidAt st i ≠ 0)) := by
  unfold Threads.waitForAllToQuiesce
  rw [waitGo_spec st.threads st.numThreads st.threads.length 0 0 (by omega)
    (by rw [List.drop_zero, Nat.zero_add]; exact hinv.2.symm)]
  rw [← List.range_eq_range', hinv.1]
  exact congrArg some (List.filter_congr (fun i _ => rfl))

theorem C8_quiescence_barrier_witness :
    stScenario.Inv ∧
    stScenario.waitForAllToQuiesce
      = some ((List.range stScenario.maxThreads).filter
          (fun i => tidAt stScenario i ≠ 0)) :=
  ⟨by decide, C8_quiescence_barrier stScenario (by decide)⟩

/-! ## The constructor arithmetic (claim C7) -/

/-- `x & ~(p - 1)` for `p = 2 ^ k` on a 64-bit word clears the low `k`
bits: it equals `2 ^ k * (x / 2 ^ k)`. -/
lemma land_ctor_mask (x k : Nat) (hk : k ≤ 64) (hx : x < 2 ^ 64) :
    x &&& (2 ^ 64 - 2 ^ k) = 2 ^ k * (x / 2 ^ k) := by
  have hmask : 2 ^ 64 - 2 ^ k = (2 ^ (64 - k) - 1) <<< k := by
    rw [Nat.shiftLeft_eq, Nat.sub_mul, one_mul, ← Nat.pow_add,
      Nat.sub_add_cancel hk]
  have hdiv : 2 ^ k * (x / 2 ^ k) = (x >>> k) <<< k := by
    rw [Nat.shiftRight_eq_div_pow, Nat.shiftLeft_eq, Nat.mul_comm]
  rw [hmask, hdiv]
  apply Nat.eq_of_testBit_eq
  intro j
  rw [Nat.testBit_land, Nat.testBit_shiftLeft, Nat.testBit_shiftLeft,
    Nat.testBit_two_pow_sub_one, Nat.testBit_shiftRight]
  by_cases hjk : k ≤ j
  · by_cases hj64 : j < 64
    · have h1 : decide (j ≥ k) = true := decide_eq_true hjk
      have h2 : decide (j - k < 64 - k) = true := decide_eq_true (by omega)
      have h3 : k + (j - k) = j := by omega
      rw [h1, h2, h3]
      simp
    · have hxj : x.testBit j = false :=
        Nat.testBit_lt_two_pow
          (lt_of_lt_of_le hx (Nat.pow_le_pow_right (by omega) (by omega)))
      have h3 : k + (j - k) = j := by omega
      rw [h3, hxj]
      simp
  · have h1 : decide (j ≥ k) = false := by
      simp [hjk]
    rw [h1]
    simp

/-- C7 counterexample: for the (non-power-of-two) page size 3 with
requested maximum 1 and slot size 1, the constructor's bit trick yields
a region of 1 byte — not `1 * 1` rounded up to the next multiple of 3
(which is 3), and not a whole number of pages. -/
theorem C7_counterexample :
    ctorDataSize 1 1 3 = 1 ∧
    (1 * 1 + 3 - 1) / 3 * 3 = 3 ∧
    ctorDataSize 1 1 3 ≠ (1 * 1 + 3 - 1) / 3 * 3 ∧
    ctorDataSize 1 1 3 % 3 ≠ 0 := by
  refine ⟨by decide, by decide, by decide, by decide⟩

/-- C7 (amended): for every requested maximum `m`, slot size `s > 0`,
and page size that is a power of two `2 ^ k` (as `getpagesize` always
returns), provided `m * s + 2 ^ k - 1` does not overflow the 64-bit
`size_t`: the backing-region size equals `m * s` rounded up to the next
multiple of the page size (in particular a whole number of pages), and
the recomputed capacity `data_size_ / s` is at least `m`. -/
theorem C7_ctor_rounding (m s k : Nat) (hs : 0 < s) (hk : k ≤ 64)
    (hov : m * s + (2 ^ k - 1) < 2 ^ 64) :
    ctorDataSize m s (2 ^ k) = (m * s + (2 ^ k - 1)) / 2 ^ k * 2 ^ k ∧
    ctorDataSize m s (2 ^ k) % 2 ^ k = 0 ∧
    m * s ≤ ctorDataSize m s (2 ^ k) ∧
    m ≤ ctorMaxThreads m s (2 ^ k) := by
  have h2k : 0 < 2 ^ k := Nat.pos_pow_of_pos k (by omega)
  have hx : ctorDataSize m s (2 ^ k)
      = 2 ^ k * ((m * s + (2 ^ k - 1)) / 2 ^ k) := by
    unfold ctorDataSize
    rw [Nat.mod_eq_of_lt hov, land_ctor_mask _ k hk hov]
  have hle : m * s ≤ 2 ^ k * ((m * s + (2 ^ k - 1)) / 2 ^ k) := by
    have hmoddiv := Nat.mod_add_div (m * s + (2 ^ k - 1)) (2 ^ k)
    have hmodlt := Nat.mod_lt (m * s + (2 ^ k - 1)) h2k
    omega
  refine ⟨by rw [hx, Nat.mul_comm], by rw [hx, Nat.mul_mod_right], by
    rw [hx]; exact hle, ?_⟩
  unfold ctorMaxThreads
  rw [Nat.le_div_iff_mul_le hs, hx]
  exact hle

theorem C7_ctor_rounding_witness :
    ctorDataSize 3 96 (2 ^ 12) = (3 * 96 + (2 ^ 12 - 1)) / 2 ^ 12 * 2 ^ 12 ∧
    ctorDataSize 3 96 (2 ^ 12) % 2 ^ 12 = 0 ∧
    3 * 96 ≤ ctorDataSize 3 96 (2 ^ 12) ∧
    3 ≤ ctorMaxThreads 3 96 (2 ^ 12) :=
  C7_ctor_rounding 3 96 12 (by decide) (by decide) (by decide)
